import Mathlib

set_option maxRecDepth 8192

/- Verification of LOGfilter_enhanced.py against its specification.
   Python strings are modelled as lists of characters; each Python function
   of interest becomes a Lean function over that representation. -/

/- Convert a Lean string literal to the character-list representation. -/
def str (s : String) : List Char := s.data

def lowerStr (s : List Char) : List Char := s.map Char.toLower

def upperStr (s : List Char) : List Char := s.map Char.toUpper

/- Python str.strip / ASCII whitespace set used by CPython. -/
def isPySpace (c : Char) : Bool :=
  c == ' ' || c == '\t' || c == '\n' || c == '\r' || c == Char.ofNat 11 || c == Char.ofNat 12

def lstrip (s : List Char) : List Char := s.dropWhile isPySpace

/- Trailing-whitespace strip (Python str.rstrip). -/
def rstrip (s : List Char) : List Char := (s.reverse.dropWhile isPySpace).reverse

/- Python str.strip: removes whitespace from BOTH ends. -/
def pyStrip (s : List Char) : List Char := rstrip (lstrip s)

/- os.path.basename for POSIX paths: the part after the last slash. -/
def basename (p : List Char) : List Char :=
  (p.reverse.takeWhile (fun c => c != '/')).reverse

def escChar : Char := Char.ofNat 27

namespace Colors

def GREEN : List Char := escChar :: str "[92m"

def RED : List Char := escChar :: str "[91m"

def BLUE : List Char := escChar :: str "[94m"

def YELLOW : List Char := escChar :: str "[93m"

def RESET : List Char := escChar :: str "[0m"

end Colors

/- Model of the compiled regular expressions produced by the program.
   compile_keyword_patterns only ever builds re.escape-d literal patterns,
   so a token is a literal character or the metacharacter dot. -/
inductive RTok
  | lit (c : Char)
  | dot
deriving DecidableEq

/- The characters escaped by Python 3.7+ re.escape. -/
def specialChars : List Char := str "()[]\x7b\x7d?*+-|^$\\.&~# \t\n\r\x0b\x0c"

/- Characters with special meaning when they appear unescaped in a pattern. -/
def metaChars : List Char := str ".^$*+?\x7b\x7d[]()|\\"

def reEscapeChar (c : Char) : List Char :=
  if c ∈ specialChars then ['\\', c] else [c]

/- re.escape -/
def reEscape (s : List Char) : List Char := (s.map reEscapeChar).flatten

/- Parse a pattern string into tokens.  A backslash escapes the next
   non-alphanumeric character to a literal; an unescaped dot matches any
   character except newline; other unescaped metacharacters are outside the
   modelled fragment (none), and any remaining character is a literal. -/
def parseRegex : List Char → Option (List RTok)
  | [] => some []
  | c :: rest =>
    if c == '\\' then
      match rest with
      | [] => none
      | d :: rest2 =>
          if d.isAlphanum then none
          else (parseRegex rest2).map (fun ts => RTok.lit d :: ts)
    else if c == '.' then (parseRegex rest).map (fun ts => RTok.dot :: ts)
    else if c ∈ metaChars then none
    else (parseRegex rest).map (fun ts => RTok.lit c :: ts)

/- One token against one character, with re.IGNORECASE folding. -/
def tokMatches : RTok → Char → Bool
  | RTok.lit a, c => a.toLower == c.toLower
  | RTok.dot, c => c != '\n'

/- Token list against a front segment of the text. -/
def toksHere : List RTok → List Char → Bool
  | [], _ => true
  | _ :: _, [] => false
  | t :: ts, c :: cs => tokMatches t c && toksHere ts cs

/- Pattern.search: does the token list match anywhere in the text? -/
def regexSearch (ts : List RTok) : List Char → Bool
  | [] => toksHere ts []
  | c :: rest => toksHere ts (c :: rest) || regexSearch ts rest

def patternSearchO : Option (List RTok) → List Char → Bool
  | none, _ => false
  | some ts, s => regexSearch ts s

/- compile_keyword_patterns: re.compile(re.escape(keyword), re.IGNORECASE). -/
def compile_keyword_patterns (keywords : List (List Char)) : List (Option (List RTok)) :=
  keywords.map (fun k => parseRegex (reEscape k))

/- The per-line predicate of filter_log_file:
   any(pattern.search(line) for pattern in keyword_patterns). -/
def linePasses (pats : List (Option (List RTok))) (line : List Char) : Bool :=
  pats.any (fun p => patternSearchO p line)

/- Specification-side matcher: case-insensitive prefix comparison. -/
def startsWithCI : List Char → List Char → Bool
  | [], _ => true
  | _ :: _, [] => false
  | k :: ks, c :: cs => (k.toLower == c.toLower) && startsWithCI ks cs

/- Specification-side matcher: k occurs in the text as a substring,
   compared case-insensitively, every character literal. -/
def substrCI (k : List Char) : List Char → Bool
  | [] => startsWithCI k []
  | c :: rest => startsWithCI k (c :: rest) || substrCI k rest

/- A recorded match: source file base name, 1-based line number, content. -/
structure MatchRec where
  file : List Char
  lineNo : Nat
  content : List Char
deriving DecidableEq

/- filter_log_file: enumerate lines from 1; a line that passes the keyword
   predicate is recorded as (basename of path, line number, line.strip()).
   readOk = false models the caught FileNotFoundError / read error, which
   yields an empty result. -/
def filter_log_file (path : List Char) (lines : List (List Char))
    (pats : List (Option (List RTok))) (readOk : Bool) : List MatchRec :=
  if readOk then
    (List.enumFrom 1 lines).filterMap (fun p =>
      if linePasses pats p.2 then some ⟨basename path, p.1, pyStrip p.2⟩ else none)
  else []

/- Every character escaped by re.escape is non-alphanumeric. -/
theorem special_not_alnum (c : Char) (h : c ∈ specialChars) :
    c.isAlphanum = false := by
  fin_cases h <;> decide

theorem meta_mem_special (c : Char) (h : c ∈ metaChars) : c ∈ specialChars := by
  fin_cases h <;> decide

/- Parsing an escaped keyword always succeeds and yields the literal tokens. -/
theorem parseRegex_reEscape (k : List Char) :
    parseRegex (reEscape k) = some (k.map RTok.lit) := by
  induction k with
  | nil => rfl
  | cons c cs ih =>
    show parseRegex (reEscapeChar c ++ reEscape cs) = _
    by_cases hs : c ∈ specialChars
    · have halnum := special_not_alnum c hs
      rw [show reEscapeChar c = ['\\', c] from by simp [reEscapeChar, hs]]
      show parseRegex ('\\' :: c :: reEscape cs) = _
      rw [parseRegex.eq_def]
      simp [halnum, ih]
    · have hmeta : c ∉ metaChars := fun h => hs (meta_mem_special c h)
      have hbs : (c == '\\') = false := by
        cases h : c == '\\'
        · rfl
        · have hc : c = '\\' := eq_of_beq h
          subst hc
          exact absurd (by decide) hs
      have hdot : (c == '.') = false := by
        cases h : c == '.'
        · rfl
        · have hc : c = '.' := eq_of_beq h
          subst hc
          exact absurd (by decide) hs
      rw [show reEscapeChar c = [c] from by simp [reEscapeChar, hs]]
      show parseRegex (c :: reEscape cs) = _
      rw [parseRegex.eq_def]
      simp [hbs, hdot, hmeta, ih]

theorem toksHere_lit (k : List Char) (s : List Char) :
    toksHere (k.map RTok.lit) s = startsWithCI k s := by
  induction k generalizing s with
  | nil => cases s <;> rfl
  | cons a ks ih =>
    cases s with
    | nil => rfl
    | cons c cs => simp [toksHere, startsWithCI, tokMatches, ih]

theorem regexSearch_lit (k : List Char) (s : List Char) :
    regexSearch (k.map RTok.lit) s = substrCI k s := by
  induction s with
  | nil => simp [regexSearch, substrCI, toksHere_lit]
  | cons c cs ih => simp [regexSearch, substrCI, toksHere_lit, ih]

theorem linePasses_compile (K : List (List Char)) (L : List Char) :
    linePasses (compile_keyword_patterns K) L = K.any (fun k => substrCI k L) := by
  induction K with
  | nil => rfl
  | cons k ks ih =>
    show (patternSearchO (parseRegex (reEscape k)) L
        || linePasses (compile_keyword_patterns ks) L)
        = (substrCI k L || ks.any (fun x => substrCI x L))
    rw [parseRegex_reEscape, ih]
    show (regexSearch (k.map RTok.lit) L || ks.any (fun x => substrCI x L)) = _
    rw [regexSearch_lit]

/-- C1: the Line Filter selects a line L iff some keyword in K occurs in L as
a case-insensitive literal substring; regex metacharacters in a keyword have
no special meaning (keyword "a.b" does not match line "axb"); with an empty
keyword list no line is ever selected. -/
theorem line_filter_selects_iff_substring (K : List (List Char)) (L : List Char) :
    (linePasses (compile_keyword_patterns K) L = true ↔ ∃ k ∈ K, substrCI k L = true)
    ∧ linePasses (compile_keyword_patterns [str "a.b"]) (str "axb") = false
    ∧ linePasses (compile_keyword_patterns []) L = false := by
  refine ⟨?_, by decide, rfl⟩
  rw [linePasses_compile]
  exact List.any_eq_true

/- Specification-side description of the Line Filter records, written from the
   spec with the stripping amended to Python str.strip (both ends): for each
   1-based line position, if some keyword occurs case-insensitively, record
   the base name of the file, the position, and the stripped line. -/
def specRecords (path : List Char) (lines : List (List Char))
    (K : List (List Char)) : List MatchRec :=
  lines.enum.filterMap (fun p =>
    if K.any (fun k => substrCI k p.2) then some ⟨basename path, p.1 + 1, pyStrip p.2⟩
    else none)

theorem enumFrom_eq_map {α : Type} (xs : List α) :
    ∀ n m : Nat, List.enumFrom (m + n) xs
      = (List.enumFrom m xs).map (fun p => (p.1 + n, p.2)) := by
  induction xs with
  | nil => intro n m; rfl
  | cons x xs ih =>
    intro n m
    show ((m + n, x) :: List.enumFrom (m + n + 1) xs) = _
    have h1 : m + n + 1 = (m + 1) + n := by omega
    rw [h1, ih n (m + 1)]
    show _ = ((m + n, x) :: (List.enumFrom (m + 1) xs).map (fun p => (p.1 + n, p.2)))
    rfl

/-- C2 counterexample: filter_log_file strips LEADING whitespace as well
(Python str.strip), so the recorded content of a matching line that starts
with whitespace is not "the line with its trailing newline/whitespace
stripped and nothing else removed". -/
theorem line_filter_strip_cex :
    (filter_log_file (str "dir/f.LOG") [str "  CCP: EPK x \n"]
        (compile_keyword_patterns [str "CCP: EPK"]) true).map MatchRec.content
      = [str "CCP: EPK x"]
    ∧ rstrip (str "  CCP: EPK x \n") = str "  CCP: EPK x"
    ∧ str "CCP: EPK x" ≠ str "  CCP: EPK x" := by decide

/-- C2 (amended): for a readable file, the Line Filter records, for exactly
the lines on which some keyword occurs case-insensitively, a Match holding
the file's base name, the line's 1-based physical position, and the line
with whitespace stripped from BOTH ends (Python str.strip), in line order. -/
theorem line_filter_records_amended (path : List Char) (lines : List (List Char))
    (K : List (List Char)) :
    filter_log_file path lines (compile_keyword_patterns K) true
      = specRecords path lines K := by
  show (List.enumFrom 1 lines).filterMap _ = _
  have h1 : List.enumFrom 1 lines = lines.enum.map (fun p => (p.1 + 1, p.2)) := by
    have h := enumFrom_eq_map lines 1 0
    simpa [List.enum] using h
  rw [h1, List.filterMap_map]
  unfold specRecords
  congr 1
  funext p
  simp only [Function.comp, linePasses_compile]

/- Regex word character for the word-boundary assertion (ASCII). -/
def isWordChar (c : Char) : Bool := c.isAlphanum || c == '_'

def isWordOpt : Option Char → Bool
  | none => false
  | some c => isWordChar c

/- A word boundary sits between two positions iff exactly one side holds a
   word character (text edges count as non-word). -/
def boundaryB (a b : Option Char) : Bool := isWordOpt a != isWordOpt b

/- Does the pattern (the literal term w, case-insensitive, with word
   boundaries required when useB) match at the current position?  prev is the
   character just before this position in the text being scanned. -/
def matchAt (useB : Bool) (w : List Char) (prev : Option Char) (s : List Char) : Bool :=
  startsWithCI w s &&
    (!useB ||
      (boundaryB prev s.head? &&
        boundaryB ((s.take w.length).getLast?) ((s.drop w.length).head?)))

/- re.Pattern.sub with replacement pre ++ matched-text ++ post: scan left to
   right, replace each leftmost non-overlapping occurrence, and continue
   scanning the ORIGINAL text after the matched segment.  The empty pattern
   is handled by the caller (applyTerm), never here.  The Nat argument is
   recursion fuel: every step consumes at least one character of the text,
   so fuel equal to the text length (supplied by subCI below) never runs
   out and the definition reduces by structural recursion. -/
def subCIF (useB : Bool) (w pre post : List Char) : Nat → Option Char → List Char → List Char
  | _, _, [] => []
  | 0, _, s => s
  | fuel + 1, prev, c :: cs =>
    if matchAt useB w prev (c :: cs) then
      pre ++ (c :: cs).take w.length ++ post ++
        subCIF useB w pre post fuel (((c :: cs).take w.length).getLast?) (cs.drop (w.length - 1))
    else
      c :: subCIF useB w pre post fuel (some c) cs

def subCI (useB : Bool) (w pre post : List Char) (prev : Option Char) (s : List Char) : List Char :=
  subCIF useB w pre post s.length prev s

/- word.lower() in ["match", "mismatch"] and " " not in word -/
def useBoundary (term : List Char) : Bool :=
  (lowerStr term == str "match" || lowerStr term == str "mismatch")
    && !(term.contains ' ')

/- CSS class choice of highlight_text in HTML mode. -/
def cssClassFor (term : List Char) : List Char :=
  if lowerStr term == str "match" && !(term.contains ' ') then str "match"
  else if lowerStr term == str "mismatch" then str "mismatch"
  else if substrCI (str "configuration") term then str "configuration"
  else str "highlight"

/- Python str.replace for a single-character needle. -/
def replOne (c : Char) (rep : List Char) (s : List Char) : List Char :=
  (s.map (fun d => if d == c then rep else [d])).flatten

/- text.replace('&','&amp;').replace('<','&lt;').replace('>','&gt;') -/
def escapeHtmlChars (s : List Char) : List Char :=
  replOne '>' (str "&gt;") (replOne '<' (str "&lt;") (replOne '&' (str "&amp;") s))

/- Stable insertion of one entry into a list sorted by term length
   descending: the entry goes before the first entry whose term is not
   strictly longer, which reproduces Python sorted(..., reverse=True). -/
def insertByLen (p : List Char × List Char) :
    List (List Char × List Char) → List (List Char × List Char)
  | [] => [p]
  | q :: qs => if p.1.length < q.1.length then q :: insertByLen p qs else p :: q :: qs

def sortedByLenDesc (hw : List (List Char × List Char)) : List (List Char × List Char) :=
  hw.foldr insertByLen []

/- One pass of the loop body of highlight_text for one (term, color) entry.
   In HTML mode the replacement wraps the match in a span whose class is
   cssClassFor; otherwise it wraps it in the ANSI color and RESET.  An empty
   term compiles to the empty pattern, which re.sub matches at every gap. -/
def applyTerm (htmlMode : Bool) (term color s : List Char) : List Char :=
  let pre := if htmlMode then str "<span class=\"" ++ cssClassFor term ++ str "\">" else color
  let post := if htmlMode then str "</span>" else Colors.RESET
  if term.isEmpty then
    (pre ++ post) ++ (s.map (fun c => c :: (pre ++ post))).flatten
  else
    subCI (useBoundary term) term pre post none s

/- highlight_text: empty/absent spec returns the text unchanged (before any
   escaping); otherwise HTML mode escapes the markup characters first, terms
   are applied longest first, each rewriting the accumulated result. -/
def highlight_text (text : List Char) (hw : List (List Char × List Char))
    (htmlMode : Bool) : List Char :=
  if hw.isEmpty then text
  else
    (sortedByLenDesc hw).foldl (fun acc p => applyTerm htmlMode p.1 p.2 acc)
      (if htmlMode then escapeHtmlChars text else text)

/- Does the compiled matcher of a term find at least one occurrence in s?
   (For the empty term the empty pattern matches everywhere, including the
   end-of-text position.) -/
def matcherFinds (useB : Bool) (w : List Char) : Option Char → List Char → Bool
  | prev, [] => matchAt useB w prev []
  | prev, c :: cs => matchAt useB w prev (c :: cs) || matcherFinds useB w (some c) cs

def matcherOccurs (term s : List Char) : Bool :=
  matcherFinds (useBoundary term) term none s

def noMarkup (s : List Char) : Bool := !(s.contains '&' || s.contains '<' || s.contains '>')

/-- C3: with the HighlightSpec mapping "match" to GREEN and "mismatch" to
RED, highlighting "status: mismatch found" in structured mode wraps the
whole word "mismatch" in a single span of class "mismatch" and does not
separately highlight the substring "match" inside it. -/
theorem highlight_mismatch_whole_word :
    highlight_text (str "status: mismatch found")
        [(str "match", Colors.GREEN), (str "mismatch", Colors.RED)] true
      = str "status: <span class=\"mismatch\">mismatch</span> found" := by decide

theorem subCIF_no_occurrence (useB : Bool) (w pre post : List Char) (s : List Char) :
    ∀ (fuel : Nat) (prev : Option Char), s.length ≤ fuel →
      matcherFinds useB w prev s = false → subCIF useB w pre post fuel prev s = s := by
  induction s with
  | nil =>
    intro fuel prev _ _
    cases fuel <;> rfl
  | cons c cs ih =>
    intro fuel prev hlen h
    have h2 : matchAt useB w prev (c :: cs) = false
        ∧ matcherFinds useB w (some c) cs = false := by
      simpa [matcherFinds, Bool.or_eq_false_iff] using h
    cases fuel with
    | zero => simp at hlen
    | succ f =>
      simp only [subCIF, h2.1, Bool.false_eq_true, if_false, ite_false]
      rw [ih f (some c) (by simp only [List.length_cons] at hlen; omega) h2.2]

/- If the term matcher finds no occurrence anywhere in the text, the
   substitution leaves the text unchanged. -/
theorem subCI_no_occurrence (useB : Bool) (w pre post : List Char) (prev : Option Char)
    (s : List Char) (h : matcherFinds useB w prev s = false) :
    subCI useB w pre post prev s = s :=
  subCIF_no_occurrence useB w pre post s s.length prev (Nat.le_refl _) h

theorem replOne_id (c : Char) (rep : List Char) (s : List Char)
    (h : c ∉ s) : replOne c rep s = s := by
  induction s with
  | nil => rfl
  | cons d t ih =>
    have h1 : c ≠ d := fun e => h (by simp [e])
    have h2 : c ∉ t := fun e => h (by simp [e])
    have hd : (d == c) = false := by
      cases hdc : d == c
      · rfl
      · exact absurd (eq_of_beq hdc).symm h1
    show (if d == c then rep else [d]) ++ replOne c rep t = d :: t
    rw [hd, ih h2]
    rfl

theorem escapeHtml_id (s : List Char) (h : noMarkup s = true) :
    escapeHtmlChars s = s := by
  have h3 : (('&' ∉ s) ∧ ('<' ∉ s)) ∧ ('>' ∉ s) := by
    simpa [noMarkup] using h
  unfold escapeHtmlChars
  rw [replOne_id '&' _ s h3.1.1, replOne_id '<' _ s h3.1.2, replOne_id '>' _ s h3.2]

/- The empty term's pattern matches everywhere (so it always "finds"). -/
theorem matcherOccurs_nil (s : List Char) : matcherOccurs [] s = true := by
  cases s <;> rfl

/-- C5 counterexample: in structured-markup mode, a line containing a markup
character is NOT returned unchanged even though the single term's matcher
finds no occurrence in it — the markup characters get escaped. -/
theorem highlight_no_occurrence_html_cex :
    matcherOccurs (str "zzz") (str "a<b") = false
    ∧ highlight_text (str "a<b") [(str "zzz", Colors.RED)] true ≠ str "a<b" := by decide

/-- C5 (amended): for a single term whose matcher finds no occurrence in the
line, plain mode returns the line unchanged, and structured-markup mode
returns it unchanged provided the line contains none of the markup
characters ampersand, less-than, greater-than (otherwise only the initial
escaping changes it). -/
theorem highlight_single_no_occurrence (t c s : List Char)
    (h : matcherOccurs t s = false) :
    highlight_text s [(t, c)] false = s
    ∧ (noMarkup s = true → highlight_text s [(t, c)] true = s) := by
  have ht : t ≠ [] := by
    intro he
    subst he
    rw [matcherOccurs_nil s] at h
    exact absurd h (by decide)
  have hterm : t.isEmpty = false := by
    cases t
    · exact absurd rfl ht
    · rfl
  constructor
  · show applyTerm false t c s = s
    simp only [applyTerm, hterm, Bool.false_eq_true, if_false, ite_false]
    exact subCI_no_occurrence _ _ _ _ _ _ h
  · intro hm
    show applyTerm true t c (escapeHtmlChars s) = s
    rw [escapeHtml_id s hm]
    simp only [applyTerm, hterm, Bool.false_eq_true, if_false, ite_false]
    exact subCI_no_occurrence _ _ _ _ _ _ h

/-- C5 witness: the term "zzz" occurs nowhere in "hello world", and the
Highlighter returns that line unchanged in both modes. -/
theorem highlight_single_no_occurrence_witness :
    highlight_text (str "hello world") [(str "zzz", Colors.RED)] false = str "hello world"
    ∧ highlight_text (str "hello world") [(str "zzz", Colors.RED)] true = str "hello world" :=
  ⟨(highlight_single_no_occurrence (str "zzz") Colors.RED (str "hello world") (by decide)).1,
   (highlight_single_no_occurrence (str "zzz") Colors.RED (str "hello world") (by decide)).2
     (by decide)⟩

/-- C10: in structured-markup mode an empty (or absent, which Python treats
the same through `if not highlight_words`) HighlightSpec returns the input
text verbatim, with the markup characters left unescaped; escaping happens
only when the spec is non-empty, as the second conjunct shows on "<". -/
theorem empty_spec_html_verbatim (t : List Char) :
    highlight_text t [] true = t
    ∧ highlight_text (str "<") [(str "zzz", Colors.RED)] true = str "&lt;" :=
  ⟨rfl, by decide⟩

def default_keywords : List (List Char) := [str "CCP: EPK", str "Configuration file:"]

def default_highlight : List (List Char × List Char) :=
  [(str "mismatch", Colors.RED), (str "match", Colors.GREEN),
   (str "Configuration file:", Colors.BLUE)]

/- A present, readable, well-formed (JSON-parsed) configuration file; a field
   set to none models the key being absent from the document. -/
structure ConfigFile where
  keywords : Option (List (List Char))
  highlight_words : Option (List (List Char × List Char))

/- The color-string conversion of load_config: RED/GREEN/BLUE/YELLOW compared
   after .upper(), anything else becomes the reset style. -/
def styleFromName (c : List Char) : List Char :=
  if upperStr c == str "RED" then Colors.RED
  else if upperStr c == str "GREEN" then Colors.GREEN
  else if upperStr c == str "BLUE" then Colors.BLUE
  else if upperStr c == str "YELLOW" then Colors.YELLOW
  else Colors.RESET

/- load_config: none models an absent/unreadable/malformed file (every such
   case returns the full defaults); for a parsed document, keywords defaults
   to default_keywords but highlight_words defaults to the EMPTY mapping
   (config.get('highlight_words', {})), each entry's style name converted. -/
def load_config : Option ConfigFile → List (List Char) × List (List Char × List Char)
  | none => (default_keywords, default_highlight)
  | some cfg =>
    (cfg.keywords.getD default_keywords,
     (cfg.highlight_words.getD []).map (fun p => (p.1, styleFromName p.2)))

/-- C4 counterexample: for a well-formed config file in which only the
highlight_words field is absent, load_config returns the EMPTY highlight
mapping, not the default mapping the claim requires. -/
theorem load_config_absent_highlight_cex :
    (load_config (some ⟨none, none⟩)).2 = []
    ∧ (load_config (some ⟨none, none⟩)).2 ≠ default_highlight := by decide

/-- C4 (amended): for a present, readable, well-formed config file, an absent
keywords field defaults to the default keyword list; an absent
highlight_words field yields the EMPTY highlight mapping (not the default
one); and an entry whose style name is none of RED, GREEN, BLUE, YELLOW
(compared after uppercasing) is mapped to the neutral/reset style. -/
theorem load_config_defaults_amended (cfg : ConfigFile) :
    (cfg.keywords = none → (load_config (some cfg)).1 = default_keywords)
    ∧ (cfg.highlight_words = none → (load_config (some cfg)).2 = [])
    ∧ (∀ hws w c, cfg.highlight_words = some hws → (w, c) ∈ hws →
        upperStr c ≠ str "RED" → upperStr c ≠ str "GREEN" →
        upperStr c ≠ str "BLUE" → upperStr c ≠ str "YELLOW" →
        (w, Colors.RESET) ∈ (load_config (some cfg)).2) := by
  refine ⟨?_, ?_, ?_⟩
  · intro h
    simp [load_config, h]
  · intro h
    simp [load_config, h]
  · intro hws w c hcfg hmem h1 h2 h3 h4
    have hstyle : styleFromName c = Colors.RESET := by
      have b1 : (upperStr c == str "RED") = false := by
        cases hb : upperStr c == str "RED"
        · rfl
        · exact absurd (eq_of_beq hb) h1
      have b2 : (upperStr c == str "GREEN") = false := by
        cases hb : upperStr c == str "GREEN"
        · rfl
        · exact absurd (eq_of_beq hb) h2
      have b3 : (upperStr c == str "BLUE") = false := by
        cases hb : upperStr c == str "BLUE"
        · rfl
        · exact absurd (eq_of_beq hb) h3
      have b4 : (upperStr c == str "YELLOW") = false := by
        cases hb : upperStr c == str "YELLOW"
        · rfl
        · exact absurd (eq_of_beq hb) h4
      simp [styleFromName, b1, b2, b3, b4]
    show (w, Colors.RESET) ∈ (cfg.highlight_words.getD []).map (fun p => (p.1, styleFromName p.2))
    rw [hcfg]
    show (w, Colors.RESET) ∈ hws.map (fun p => (p.1, styleFromName p.2))
    rw [List.mem_map]
    exact ⟨(w, c), hmem, by rw [hstyle]⟩

/-- C4 witness: applying the amended theorem at a concrete config whose
keywords field is absent and whose highlight_words holds one entry with the
unrecognized style name PURPLE. -/
theorem load_config_defaults_amended_witness :
    (load_config (some ⟨none, some [(str "w", str "PURPLE")]⟩)).1 = default_keywords
    ∧ (load_config (some ⟨some [str "k"], none⟩)).2 = []
    ∧ (str "w", Colors.RESET)
        ∈ (load_config (some ⟨none, some [(str "w", str "PURPLE")]⟩)).2 :=
  ⟨(load_config_defaults_amended ⟨none, some [(str "w", str "PURPLE")]⟩).1 rfl,
   (load_config_defaults_amended ⟨some [str "k"], none⟩).2.1 rfl,
   (load_config_defaults_amended ⟨none, some [(str "w", str "PURPLE")]⟩).2.2
     [(str "w", str "PURPLE")] (str "w") (str "PURPLE") rfl (List.Mem.head _)
     (by decide) (by decide) (by decide) (by decide)⟩

/- Split off the extension of a path's final component as os.path.splitext
   does: the extension starts at the last dot of the base name, except that
   leading dots of the base name never start an extension. -/
def splitLastDot (s : List Char) : Option (List Char × List Char) :=
  let tailRun := s.reverse.takeWhile (fun c => c != '.')
  if tailRun.length == s.length then none
  else some (s.take (s.length - tailRun.length - 1), s.drop (s.length - tailRun.length - 1))

def splitextB (b : List Char) : List Char × List Char :=
  let lead := b.takeWhile (fun c => c == '.')
  let rest := b.drop lead.length
  match splitLastDot rest with
  | none => (b, [])
  | some (r, e) => (lead ++ r, e)

/- One member entry of a ZIP container: its stored path, the text lines of
   the member file, and whether extracting it succeeds (ok = false models an
   OS error in the middle of the extraction loop, which the function's
   except-clause turns into returning the partial result list). -/
structure Member where
  name : List Char
  content : List (List Char)
  ok : Bool

/- The member-extraction loop of extract_log_files_from_zip, threading the
   set of files existing in the scratch directory (paths relative to it).
   Extraction writes the member under its stored path; a member stored in a
   subdirectory is then moved to its base name directly in the scratch
   directory, renamed to root_zipbase.ext when the base name already exists.
   Returns (final file set, extracted (path, content) pairs in order, and
   whether the loop was aborted by a failing member). -/
def extractLoop (zipBase : List Char) :
    List (List Char) → List (List Char × List (List Char)) → List Member →
      List (List Char) × List (List Char × List (List Char)) × Bool
  | fs, acc, [] => (fs, acc, false)
  | fs, acc, m :: ms =>
    if !m.ok then (fs, acc, true)
    else
      let fs1 := m.name :: fs
      if m.name.contains '/' then
        let bn := basename m.name
        let np :=
          if fs1.contains bn then
            (splitextB bn).1 ++ str "_" ++ zipBase ++ (splitextB bn).2
          else bn
        extractLoop zipBase (np :: fs1.erase m.name) (acc ++ [(np, m.content)]) ms
      else
        extractLoop zipBase fs1 (acc ++ [(m.name, m.content)]) ms

/- extract_log_files_from_zip: none models zipfile.BadZipFile on opening the
   container (one error logged, no extraction, empty result); otherwise the
   members whose name ends in .LOG case-insensitively are extracted in order.
   The Nat result counts the error messages logged by the except-clauses. -/
def extract_log_files_from_zip (zipPath : List Char) (container : Option (List Member))
    (fs : List (List Char)) :
    List (List Char) × List (List Char × List (List Char)) × Nat :=
  match container with
  | none => (fs, [], 1)
  | some members =>
    let logs := members.filter (fun m => (str ".LOG").isSuffixOf (upperStr m.name))
    let r := extractLoop (basename zipPath) fs [] logs
    (r.1, r.2.1, if r.2.2 then 1 else 0)

theorem slash_not_mem_basename (p : List Char) : ('/' : Char) ∉ basename p := by
  intro h
  rw [basename, List.mem_reverse] at h
  have h2 := List.mem_takeWhile_imp h
  simp at h2

/-- C6: for a container holding exactly the members a/x.LOG, b/x.LOG and
readme.txt, extraction into an empty scratch directory returns exactly the
two paths x.LOG and x_(container base name).LOG — both directly in the
scratch directory (no slash in either), distinct thanks to the collision
rename — and readme.txt is never extracted. -/
theorem extractor_collision_scenario (zp : List Char) (la lb lr : List (List Char)) :
    ((extract_log_files_from_zip zp (some
        [⟨str "a/x.LOG", la, true⟩, ⟨str "b/x.LOG", lb, true⟩,
         ⟨str "readme.txt", lr, true⟩]) []).2.1.map Prod.fst)
      = [str "x.LOG", str "x_" ++ basename zp ++ str ".LOG"]
    ∧ str "x.LOG" ≠ str "x_" ++ basename zp ++ str ".LOG"
    ∧ (∀ q ∈ (extract_log_files_from_zip zp (some
        [⟨str "a/x.LOG", la, true⟩, ⟨str "b/x.LOG", lb, true⟩,
         ⟨str "readme.txt", lr, true⟩]) []).2.1,
        ('/' : Char) ∉ q.1 ∧ q.1 ≠ str "readme.txt") := by
  have hlist : (extract_log_files_from_zip zp (some
      [⟨str "a/x.LOG", la, true⟩, ⟨str "b/x.LOG", lb, true⟩,
       ⟨str "readme.txt", lr, true⟩]) []).2.1
      = [(str "x.LOG", la), (str "x_" ++ basename zp ++ str ".LOG", lb)] := rfl
  refine ⟨?_, ?_, ?_⟩
  · rw [hlist]
    rfl
  · intro h
    have h2 : (some '.' : Option Char) = some '_' := congrArg (fun l => l.get? 1) h
    simp at h2
  · intro q hq
    rw [hlist] at hq
    simp only [List.mem_cons, List.not_mem_nil, or_false] at hq
    rcases hq with hq | hq
    · subst hq
      refine ⟨?_, ?_⟩
      · show ('/' : Char) ∉ str "x.LOG"
        decide
      · show str "x.LOG" ≠ str "readme.txt"
        decide
    · subst hq
      constructor
      · intro hm
        simp only [List.mem_append] at hm
        rcases hm with (hm | hm) | hm
        · revert hm
          decide
        · exact slash_not_mem_basename zp hm
        · revert hm
          decide
      · intro h
        have h2 : (some 'x' : Option Char) = some 'r' := congrArg (fun l => l.get? 0) h
        simp at h2

/- The ZIP loop of process_all_log_files: each container is handed to
   extract_log_files_from_zip against the shared scratch directory, the
   extracted files are appended in container order, and the logged error
   counts add up.  The loop aborts on nothing. -/
def zipLoop : List (List Char) → List (List Char × Option (List Member)) →
    List (List Char) × List (List Char × List (List Char)) × Nat
  | fs, [] => (fs, [], 0)
  | fs, z :: zs =>
    let r1 := extract_log_files_from_zip z.1 z.2 fs
    let r2 := zipLoop r1.1 zs
    (r2.1, r1.2.1 ++ r2.2.1, r1.2.2 + r2.2.2)

/-- C7: a container that is not a valid archive is confined to itself: the
run over any surrounding containers produces exactly the scratch-directory
state and extracted files it would produce without the bad container, the
bad container contributes zero files, and exactly one more error is logged;
in particular the loop always completes. -/
theorem bad_container_isolated (fs : List (List Char))
    (pre post : List (List Char × Option (List Member))) (zp : List Char) :
    (zipLoop fs (pre ++ (zp, none) :: post)).1 = (zipLoop fs (pre ++ post)).1
    ∧ (zipLoop fs (pre ++ (zp, none) :: post)).2.1 = (zipLoop fs (pre ++ post)).2.1
    ∧ (zipLoop fs (pre ++ (zp, none) :: post)).2.2
        = (zipLoop fs (pre ++ post)).2.2 + 1 := by
  induction pre generalizing fs with
  | nil =>
    refine ⟨rfl, rfl, ?_⟩
    show 1 + (zipLoop fs post).2.2 = (zipLoop fs post).2.2 + 1
    omega
  | cons p pre ih =>
    refine ⟨?_, ?_, ?_⟩
    · show (zipLoop (extract_log_files_from_zip p.1 p.2 fs).1 (pre ++ (zp, none) :: post)).1
        = (zipLoop (extract_log_files_from_zip p.1 p.2 fs).1 (pre ++ post)).1
      exact (ih _).1
    · show (extract_log_files_from_zip p.1 p.2 fs).2.1
          ++ (zipLoop (extract_log_files_from_zip p.1 p.2 fs).1 (pre ++ (zp, none) :: post)).2.1
        = (extract_log_files_from_zip p.1 p.2 fs).2.1
          ++ (zipLoop (extract_log_files_from_zip p.1 p.2 fs).1 (pre ++ post)).2.1
      rw [(ih _).2.1]
    · show (extract_log_files_from_zip p.1 p.2 fs).2.2
          + (zipLoop (extract_log_files_from_zip p.1 p.2 fs).1 (pre ++ (zp, none) :: post)).2.2
        = (extract_log_files_from_zip p.1 p.2 fs).2.2
          + (zipLoop (extract_log_files_from_zip p.1 p.2 fs).1 (pre ++ post)).2.2 + 1
      rw [(ih _).2.2]
      omega

/- Observable side effects of process_all_log_files on the file system:
   creating / removing the scratch directory and writing the two reports. -/
inductive Ev
  | mkTemp
  | rmTemp
  | writeTxt
  | writeHtml
deriving DecidableEq

/- A plain .LOG file found directly in the scanned folder; readOk = false
   models a read error (filter_log_file then contributes no matches). -/
structure PlainFile where
  name : List Char
  lines : List (List Char)
  readOk : Bool

structure RunOut where
  events : List Ev
  matchList : List MatchRec

/- process_all_log_files: with no .LOG and no .ZIP files it returns at once;
   otherwise the scratch directory is created only when there are container
   files, the containers are extracted by zipLoop, all plain then extracted
   files are filtered, the finally-block removes the scratch directory, and
   the two reports are written only when at least one match was found. -/
def process_all_log_files (plain : List PlainFile)
    (zips : List (List Char × Option (List Member)))
    (keywords : List (List Char)) (process_zips : Bool) : RunOut :=
  let pats := compile_keyword_patterns keywords
  let zipFiles := if process_zips then zips else []
  if plain.isEmpty && zipFiles.isEmpty then ⟨[], []⟩
  else
    let tempEvs : List Ev := if zipFiles.isEmpty then [] else [Ev.mkTemp]
    let extracted := (zipLoop [] zipFiles).2.1
    let fromPlain := (plain.map (fun f => filter_log_file f.name f.lines pats f.readOk)).flatten
    let fromZips := (extracted.map (fun p => filter_log_file p.1 p.2 pats true)).flatten
    let allM := fromPlain ++ fromZips
    let cleanEvs : List Ev := if zipFiles.isEmpty then [] else [Ev.rmTemp]
    let writeEvs : List Ev := if allM.isEmpty then [] else [Ev.writeTxt, Ev.writeHtml]
    ⟨tempEvs ++ cleanEvs ++ writeEvs, allM⟩

theorem ite_nil_or {α : Type} (c : Prop) [Decidable c] (l : List α) :
    (if c then ([] : List α) else l) = [] ∨ (if c then ([] : List α) else l) = l := by
  split
  · exact Or.inl rfl
  · exact Or.inr rfl

/- Shape of every run: the events are the (possibly absent) scratch-directory
   create/remove pair followed by the report writes, which happen exactly
   when some match was found. -/
theorem process_all_shape (plain : List PlainFile)
    (zips : List (List Char × Option (List Member)))
    (keywords : List (List Char)) (pz : Bool) :
    ∃ (w : List Ev) (M : List MatchRec),
      process_all_log_files plain zips keywords pz
        = ⟨(if (if pz then zips else []).isEmpty then [] else [Ev.mkTemp])
            ++ (if (if pz then zips else []).isEmpty then [] else [Ev.rmTemp]) ++ w, M⟩
      ∧ (w = [] ∨ w = [Ev.writeTxt, Ev.writeHtml])
      ∧ (M = [] → w = []) := by
  simp only [process_all_log_files]
  by_cases h : (plain.isEmpty && (if pz then zips else []).isEmpty) = true
  · have h2 := h
    simp only [Bool.and_eq_true] at h2
    have hz := h2.2
    rw [if_pos h]
    refine ⟨[], [], ?_, Or.inl rfl, fun _ => rfl⟩
    simp [hz]
  · rw [if_neg h]
    refine ⟨_, _, rfl, ?_, ?_⟩
    · exact ite_nil_or _ _
    · intro hm
      simp [hm]

/-- C8: in every run the scratch directory is created at most once and only
when at least one container file is in play, it is removed exactly as many
times as it is created (hence exactly once whenever it exists, on every
path, whatever failures the members carry), and the container loop always
continues past any one container: its extracted files are exactly that
container's followed by those of the remaining containers. -/
theorem scratch_dir_lifecycle (plain : List PlainFile)
    (zips : List (List Char × Option (List Member)))
    (keywords : List (List Char)) (pz : Bool)
    (fs : List (List Char)) (z : List Char × Option (List Member))
    (post : List (List Char × Option (List Member))) :
    ((process_all_log_files plain zips keywords pz).events.count Ev.mkTemp ≤ 1)
    ∧ ((process_all_log_files plain zips keywords pz).events.count Ev.mkTemp
        = if (if pz then zips else []).isEmpty then 0 else 1)
    ∧ ((process_all_log_files plain zips keywords pz).events.count Ev.rmTemp
        = (process_all_log_files plain zips keywords pz).events.count Ev.mkTemp)
    ∧ ((zipLoop fs (z :: post)).2.1
        = (extract_log_files_from_zip z.1 z.2 fs).2.1
          ++ (zipLoop (extract_log_files_from_zip z.1 z.2 fs).1 post).2.1) := by
  obtain ⟨w, M, heq, hw, hwm⟩ := process_all_shape plain zips keywords pz
  have hw1 : w.count Ev.mkTemp = 0 := by
    rcases hw with rfl | rfl <;> rfl
  have hw2 : w.count Ev.rmTemp = 0 := by
    rcases hw with rfl | rfl <;> rfl
  rw [heq]
  refine ⟨?_, ?_, ?_, rfl⟩
  · cases hz : (if pz then zips else []).isEmpty <;>
      simp [hz, List.count_append, List.count_cons, List.count_nil, hw1]
  · cases hz : (if pz then zips else []).isEmpty <;>
      simp [hz, List.count_append, List.count_cons, List.count_nil, hw1]
  · cases hz : (if pz then zips else []).isEmpty <;>
      simp [hz, List.count_append, List.count_cons, List.count_nil, hw1, hw2]

/-- C9: when the aggregate match list of a run is empty, neither the text
report nor the structured report is written: no write event occurs at all. -/
theorem no_matches_no_reports (plain : List PlainFile)
    (zips : List (List Char × Option (List Member)))
    (keywords : List (List Char)) (pz : Bool)
    (h : (process_all_log_files plain zips keywords pz).matchList = []) :
    Ev.writeTxt ∉ (process_all_log_files plain zips keywords pz).events
    ∧ Ev.writeHtml ∉ (process_all_log_files plain zips keywords pz).events := by
  obtain ⟨w, M, heq, hw, hwm⟩ := process_all_shape plain zips keywords pz
  have hM : M = [] := by
    rw [heq] at h
    exact h
  have hwnil : w = [] := hwm hM
  subst hwnil
  rw [heq]
  cases hz : (if pz then zips else []).isEmpty <;> simp [hz]

/-- C9 witness: the empty run has an empty match list and produces no write
event. -/
theorem no_matches_no_reports_witness :
    Ev.writeTxt ∉ (process_all_log_files [] [] [] true).events
    ∧ Ev.writeHtml ∉ (process_all_log_files [] [] [] true).events :=
  no_matches_no_reports [] [] [] true rfl
